import Mathlib

/-
Verification of the claude-engineer-rs coding-assistant agent.

Shallow embedding of the repository's core algorithms:
 * the search/replace patch applier (src/tools.rs, ToolExecutor::apply_edits,
   ToolExecutor::normalize_whitespace),
 * the edit-instruction extractor (ToolExecutor::parse_search_replace_blocks),
 * the line-diff counts (ToolExecutor::generate_and_apply_diff via similar::TextDiff),
 * the conversation store (src/conversation_manager.rs, ConversationManager),
 * the agent loop (src/main.rs, Claude::chat_with_claude),
 * the tool dispatcher (src/tools.rs, ToolExecutor::execute_tool).

Strings are modelled as Lean Strings / lists of Chars; Rust's fallible
operations are modelled with Option/Except; file-system and terminal I/O is
abstracted away (the pure values that would be printed/written are returned).
-/

set_option maxRecDepth 4096

/-! ## Character and string utilities -/

/-- ASCII whitespace, as matched by Rust's char::is_whitespace, str::trim and
the regex class \s for ASCII inputs: space, tab, newline, carriage return,
vertical tab and form feed. -/
def isWsChar (c : Char) : Bool :=
  c = ' ' || c = '\t' || c = '\n' || c = '\r' || c = '\x0b' || c = '\x0c'

/-- Split into maximal runs of non-whitespace, as Rust's str::split_whitespace.
The accumulator holds the current word reversed. -/
def wordsAux : List Char → List Char → List (List Char)
  | [], cur => if cur.isEmpty then [] else [cur.reverse]
  | c :: rest, cur =>
      if isWsChar c then
        if cur.isEmpty then wordsAux rest [] else cur.reverse :: wordsAux rest []
      else wordsAux rest (c :: cur)

def wordsOf (cs : List Char) : List (List Char) := wordsAux cs []

/-- Join a list of words with a single separator character, as slice::join. -/
def joinSep (sep : Char) : List (List Char) → List Char
  | [] => []
  | [w] => w
  | w :: ws => w ++ sep :: joinSep sep ws

/-- ToolExecutor::normalize_whitespace (src/tools.rs):
s.split_whitespace().collect::<Vec<_>>().join(" "). -/
def normalize_whitespace (cs : List Char) : List Char :=
  joinSep ' ' (wordsOf cs)

/-- Split on every newline character, keeping all (possibly empty) segments. -/
def splitNl : List Char → List (List Char)
  | [] => [[]]
  | c :: rest =>
      if c = '\n' then [] :: splitNl rest
      else
        match splitNl rest with
        | s :: ss => (c :: s) :: ss
        | [] => [[c]]

/-- Strip one trailing carriage return, as done by str::lines on a \r\n
line ending. -/
def stripCr (cs : List Char) : List Char :=
  match cs.getLast? with
  | some '\r' => cs.dropLast
  | _ => cs

/-- Rust str::lines: split at \n (an optional final line ending produces no
trailing empty line); every segment that was terminated by \n has one
trailing \r stripped; a final unterminated segment is kept as is. -/
def strLines (cs : List Char) : List (List Char) :=
  if cs = [] then []
  else if cs.getLast? = some '\n' then ((splitNl cs).dropLast).map stripCr
  else ((splitNl cs).dropLast).map stripCr ++ [(splitNl cs).getLastD []]

/-- First occurrence of pat as a contiguous sublist: returns the part before
the occurrence and the part after it. Models str::find-style scanning and
Rust regex leftmost matching of a literal. -/
def splitFirst (pat : List Char) : List Char → Option (List Char × List Char)
  | [] => if List.isPrefixOf pat ([] : List Char) then some ([], []) else none
  | c :: rest =>
      if List.isPrefixOf pat (c :: rest) then some ([], List.drop pat.length (c :: rest))
      else
        match splitFirst pat rest with
        | some (b, a) => some (c :: b, a)
        | none => none

/-- Rust str::contains for literal needles. -/
def containsSubstr (needle hay : String) : Bool :=
  (splitFirst needle.data hay.data).isSome

/-- str::trim: drop leading and trailing whitespace. -/
def trimChars (cs : List Char) : List Char :=
  ((cs.dropWhile isWsChar).reverse.dropWhile isWsChar).reverse

/-! ## Patch applier (ToolExecutor::apply_edits) -/

/-- One search/replace instruction (struct EditInstruction, src/tools.rs). -/
structure EditInstruction where
  search : String
  replace : String
deriving DecidableEq

/-- Does every search line match the corresponding content line after
whitespace normalization, starting at the head of rem? Mirrors the inner
loop of apply_edits: content lines are normalized at comparison time,
search lines are already normalized. Runs out of content lines => false. -/
def isMatchFrom : List (List Char) → List (List Char) → Bool
  | _, [] => true
  | [], _ :: _ => false
  | l :: ls, s :: ss => normalize_whitespace l = s && isMatchFrom ls ss

def findMatchAux (searchN : List (List Char)) : Nat → List (List Char) → Option Nat
  | _, [] => none
  | i, l :: rem =>
      if isMatchFrom (l :: rem) searchN then some i
      else findMatchAux searchN (i + 1) rem

/-- First start offset at which the normalized search lines occur contiguously
in the content lines; mirrors the labelled outer loop of apply_edits
(start indices 0 .. len-1, first match wins). -/
def findMatch (lines searchN : List (List Char)) : Option Nat :=
  findMatchAux searchN 0 lines

/-- One entry of the failed-edits report: format!("Edit {}: {}", i + 1, edit.search). -/
def mkFailedEntry (i : Nat) (search : String) : String :=
  "Edit " ++ Nat.repr (i + 1) ++ ": " ++ search

/-- The sequential edit loop of apply_edits. State: 0-based index of the
current instruction, remaining instructions, current content lines, the
changes_made flag and the failed-edits entries so far. A located match is
spliced out and replaced (Vec::splice start..=start+len-1); locating an
empty search block in a non-empty file would make the Rust code compute
start + 0 - 1 on usize and panic, modelled as none. -/
def applyEditsAux : Nat → List EditInstruction → List (List Char) → Bool → List String →
    Option (List (List Char) × Bool × List String)
  | _, [], lines, changed, failed => some (lines, changed, failed)
  | i, e :: rest, lines, changed, failed =>
      match findMatch lines ((strLines e.search.data).map normalize_whitespace) with
      | some start =>
          if (strLines e.search.data).isEmpty then none
          else
            applyEditsAux (i + 1) rest
              (lines.take start ++ strLines e.replace.data ++
                lines.drop (start + (strLines e.search.data).length))
              true failed
      | none => applyEditsAux (i + 1) rest lines changed (failed ++ [mkFailedEntry i e.search])

/-- ToolExecutor::apply_edits (src/tools.rs): returns the edited content
(the final lines rejoined with single newlines), the changes_made flag and
the failed-edits entries (the Rust code joins them with newlines into one
report string; the file write and the interactive diff confirmation are
I/O, performed only when changes_made is true). -/
def apply_edits (instrs : List EditInstruction) (original : String) :
    Option (String × Bool × List String) :=
  (applyEditsAux 0 instrs (strLines original.data) false []).map
    fun out => (String.mk (joinSep '\n' out.1), out.2.1, out.2.2)

/-- The failed-edits entries produced when every instruction from position i
onward fails. -/
def failedAllFrom : Nat → List EditInstruction → List String
  | _, [] => []
  | i, e :: rest => mkFailedEntry i e.search :: failedAllFrom (i + 1) rest

/-! ## Diff engine (generate_and_apply_diff via similar::TextDiff) -/

/-- Length of a longest common subsequence, with fuel (sum of lengths
suffices). -/
def lcsLenF : Nat → List (List Char) → List (List Char) → Nat
  | 0, _, _ => 0
  | _ + 1, [], _ => 0
  | _ + 1, _ :: _, [] => 0
  | f + 1, a :: as, b :: bs =>
      if a = b then 1 + lcsLenF f as bs
      else max (lcsLenF f (a :: as) bs) (lcsLenF f as (b :: bs))

def lcsLen (a b : List (List Char)) : Nat := lcsLenF (a.length + b.length) a b

/-- Lines counted with ChangeTag::Insert by generate_and_apply_diff:
similar::TextDiff computes a minimal line edit script, whose insertion
count is new length minus the longest common subsequence. -/
def addedCount (old new : List (List Char)) : Nat := new.length - lcsLen old new

/-- Lines counted with ChangeTag::Delete by generate_and_apply_diff. -/
def removedCount (old new : List (List Char)) : Nat := old.length - lcsLen old new

/-! ## Edit-instruction extractor (ToolExecutor::parse_search_replace_blocks)

The Rust code runs the regex
<SEARCH>\s*([\s\S]*?)\s*</SEARCH>\s*<REPLACE>\s*([\s\S]*?)\s*</REPLACE>
over the text with captures_iter and trims both captures. The model below
implements the leftmost, lazy matching of that fixed pattern directly:
scan to the first <SEARCH>; then find the earliest </SEARCH> that is
followed (after whitespace only) by <REPLACE> with a later </REPLACE>;
both captured spans are trimmed (the surrounding \s* of the pattern only
moves whitespace between a capture and its context, which trimming erases);
matching resumes after </REPLACE>. -/

def openSearchTail : List Char := ['S', 'E', 'A', 'R', 'C', 'H', '>']
def openSearchMark : List Char := '<' :: openSearchTail
def closeSearchTail : List Char := ['/', 'S', 'E', 'A', 'R', 'C', 'H', '>']
def closeSearchMark : List Char := '<' :: closeSearchTail
def openReplaceTail : List Char := ['R', 'E', 'P', 'L', 'A', 'C', 'E', '>']
def openReplaceMark : List Char := '<' :: openReplaceTail
def closeReplaceTail : List Char := ['/', 'R', 'E', 'P', 'L', 'A', 'C', 'E', '>']
def closeReplaceMark : List Char := '<' :: closeReplaceTail

/-- The text after a </SEARCH> occurrence with leading whitespace skipped
(the \s* between </SEARCH> and <REPLACE>). -/
def afterWsOf (cs : List Char) : List Char :=
  (List.drop closeSearchMark.length cs).dropWhile isWsChar

/-- Scan for the earliest </SEARCH> whose continuation
\s*<REPLACE>[\s\S]*?</REPLACE> succeeds; acc is the search capture so far
(the lazy group grows one character at a time past failed candidates).
Returns (search span, replace span, rest after </REPLACE>). -/
def findClose (acc : List Char) : List Char → Option (List Char × List Char × List Char)
  | [] => none
  | c :: rest =>
      if List.isPrefixOf closeSearchMark (c :: rest) then
        if List.isPrefixOf openReplaceMark (afterWsOf (c :: rest)) then
          match splitFirst closeReplaceMark
              (List.drop openReplaceMark.length (afterWsOf (c :: rest))) with
          | some (rep, rest2) => some (acc, rep, rest2)
          | none => findClose (acc ++ [c]) rest
        else findClose (acc ++ [c]) rest
      else findClose (acc ++ [c]) rest

/-- All matches of the search/replace pattern, both captures trimmed, with
fuel (each match consumes at least one character, so length + 1 suffices). -/
def parseBlocksF : Nat → List Char → List (List Char × List Char)
  | 0, _ => []
  | fuel + 1, cs =>
      match splitFirst openSearchMark cs with
      | none => []
      | some (_, rest) =>
          match findClose [] rest with
          | none => []
          | some (s, r, rest2) => (trimChars s, trimChars r) :: parseBlocksF fuel rest2

def parseBlocksL (cs : List Char) : List (List Char × List Char) :=
  parseBlocksF (cs.length + 1) cs

/-- ToolExecutor::parse_search_replace_blocks (src/tools.rs): the ordered
list of extracted edit instructions (the Rust code serializes them to JSON
and edit_and_apply immediately deserializes them back). -/
def parse_search_replace_blocks (text : String) : List EditInstruction :=
  (parseBlocksL text.data).map fun p => ⟨String.mk p.1, String.mk p.2⟩

/-! ## Conversation store (src/conversation_manager.rs) -/

/-- ConversationManager, with the message type abstracted: history is a
VecDeque (front = oldest), current a Vec. -/
structure ConvMgr (α : Type) where
  history : List α
  current : List α
  maxHistorySize : Nat
deriving DecidableEq

def ConvMgr.new (α : Type) (maxHistorySize : Nat) : ConvMgr α :=
  ⟨[], [], maxHistorySize⟩

/-- ConversationManager::add_to_history: if len >= max_history_size,
pop_front (a no-op on an empty deque), then push_back. -/
def add_to_history (cm : ConvMgr α) (m : α) : ConvMgr α :=
  { cm with
    history :=
      (if cm.maxHistorySize ≤ cm.history.length then cm.history.drop 1 else cm.history) ++ [m] }

/-- ConversationManager::add_to_current. -/
def add_to_current (cm : ConvMgr α) (m : α) : ConvMgr α :=
  { cm with current := cm.current ++ [m] }

/-- ConversationManager::clear_current. -/
def clear_current (cm : ConvMgr α) : ConvMgr α :=
  { cm with current := [] }

/-- ConversationManager::get_combined_conversation: history then current. -/
def get_combined_conversation (cm : ConvMgr α) : List α :=
  cm.history ++ cm.current

/-- ConversationManager::commit_current_to_history: the Rust code iterates
over self.current.clone().drain(..) calling add_to_history on each message;
draining the clone leaves self.current itself untouched. -/
def commit_current_to_history (cm : ConvMgr α) : ConvMgr α :=
  cm.current.foldl add_to_history cm

/-- The four mutating operations of the store, for quantifying over
reachable states. -/
inductive CmOp (α : Type) where
  | addHist : α → CmOp α
  | addCur : α → CmOp α
  | clearCur : CmOp α
  | commit : CmOp α

def applyCmOp (cm : ConvMgr α) : CmOp α → ConvMgr α
  | .addHist m => add_to_history cm m
  | .addCur m => add_to_current cm m
  | .clearCur => clear_current cm
  | .commit => commit_current_to_history cm

/-! ## Agent loop (Claude::chat_with_claude, src/main.rs) -/

/-- One content item of a remote response: plain text or a tool-use request
(id, name, input). -/
inductive ContentItem where
  | text : String → ContentItem
  | toolUse : String → String → String → ContentItem

def isTextItem : ContentItem → Bool
  | .text _ => true
  | .toolUse _ _ _ => false

structure ApiResponse where
  content : List ContentItem
  stopReason : String

/-- Outcome of one remote round trip: a response, or an error message. -/
inductive ApiOutcome where
  | ok : ApiResponse → ApiOutcome
  | fail : String → ApiOutcome

structure ChatResult where
  result : Except String String
  delays : Nat
  roundTrips : Nat

/-- The response text accumulated by process_content_response: the
concatenation of the text items in order. -/
def concatTexts : List ContentItem → String
  | [] => ""
  | .text t :: rest => t ++ concatTexts rest
  | .toolUse _ _ _ :: rest => concatTexts rest

/-- Claude::process_content_response: accumulate text, execute each tool-use
request in order (exec abstracts ToolExecutor::execute_tool); a tool failure
aborts with context. Returns the text and the (id, result) pairs. -/
def processContent (exec : String → String → Except String String) :
    List ContentItem → Except String (String × List (String × String))
  | [] => .ok ("", [])
  | .text t :: rest =>
      match processContent exec rest with
      | .ok (txt, rs) => .ok (t ++ txt, rs)
      | .error e => .error e
  | .toolUse id name inp :: rest =>
      match exec name inp with
      | .error e => .error ("Failed to execute tool: " ++ name ++ ": " ++ e)
      | .ok r =>
          match processContent exec rest with
          | .ok (txt, rs) => .ok (txt, (id, r) :: rs)
          | .error e => .error e

/-- The rate-limit indicator pattern-matched by chat_with_claude. -/
def rateLimitIndicator : String := "Too many Requests. You have been rate limited."

/-- CONTINUATION_EXIT_PHRASE (src/main.rs). -/
def continuationExitPhrase : String := "AUTOMODE_COMPLETE"

/-- main's loop-exit test: response.contains(CONTINUATION_EXIT_PHRASE). -/
def shouldExit (response : String) : Bool :=
  containsSubstr continuationExitPhrase response

/-- Claude::chat_with_claude over an oracle of remote outcomes consumed in
order (ask_claude_simple, then the unconditional ask_claude_tool, then a
possible second ask_claude_tool). Counts the 5-second rate-limit sleeps and
the remote round trips; none models an exhausted oracle. A rate-limited
first call sleeps and restarts recursively; errors of the follow-up calls
propagate without retry. -/
def chat_with_claude (exec : String → String → Except String String) :
    List ApiOutcome → Option ChatResult
  | [] => none
  | .fail e :: rest =>
      if containsSubstr rateLimitIndicator e then
        match chat_with_claude exec rest with
        | some res => some ⟨res.result, res.delays + 1, res.roundTrips + 1⟩
        | none => none
      else some ⟨.error ("Failed to execute query with tools: " ++ e), 0, 1⟩
  | .ok r1 :: rest =>
      match processContent exec r1.content with
      | .error e => some ⟨.error e, 0, 1⟩
      | .ok (text1, _) =>
          match rest with
          | [] => none
          | .fail e :: _ => some ⟨.error e, 0, 2⟩
          | .ok r2 :: rest2 =>
              if r2.stopReason = "tool_use" then
                match processContent exec r2.content with
                | .error e => some ⟨.error e, 0, 2⟩
                | .ok (text2, _) =>
                    match rest2 with
                    | [] => none
                    | .fail e :: _ => some ⟨.error e, 0, 3⟩
                    | .ok r3 :: _ =>
                        if r3.stopReason = "tool_use" then some ⟨.ok text2, 0, 3⟩
                        else some ⟨.ok text1, 0, 3⟩
              else some ⟨.ok text1, 0, 2⟩

/-! ## Tool dispatcher (ToolExecutor::execute_tool, src/tools.rs) -/

/-- A JSON value as far as the dispatcher inspects it. -/
inductive JsonV where
  | str : String → JsonV
  | other : JsonV
deriving DecidableEq

def jsonLookup : List (String × JsonV) → String → Option JsonV
  | [], _ => none
  | (k, v) :: rest, key => if k = key then some v else jsonLookup rest key

/-- tool_input[key].as_str(): some only when the key maps to a JSON string
(a missing key indexes to Null, whose as_str is None). -/
def getStrArg (input : List (String × JsonV)) (key : String) : Option String :=
  match jsonLookup input key with
  | some (.str s) => some s
  | _ => none

/-- The local action execute_tool dispatches to (the subsequent file-system
or network I/O is abstracted away). -/
inductive ToolAction where
  | createFolder : String → ToolAction
  | createFile : String → String → ToolAction
  | editAndApply : String → String → String → ToolAction
  | readFile : String → ToolAction
  | listFiles : String → ToolAction
  | fetchCommitChanges : String → String → String → ToolAction
deriving DecidableEq

/-- ToolExecutor::execute_tool: argument extraction and dispatch. create_file
requires path but defaults a missing content to "" (unwrap_or("")); path,
owner, repo, sha, instructions and project_context are rejected with
Missing-argument errors when absent; unknown names are rejected. -/
def execute_tool (toolName : String) (input : List (String × JsonV)) :
    Except String ToolAction :=
  if toolName = "create_folder" then
    match getStrArg input "path" with
    | some p => .ok (.createFolder p)
    | none => .error "Missing path"
  else if toolName = "create_file" then
    match getStrArg input "path" with
    | some p => .ok (.createFile p ((getStrArg input "content").getD ""))
    | none => .error "Missing path"
  else if toolName = "edit_and_apply" then
    match getStrArg input "path" with
    | none => .error "Missing path"
    | some p =>
        match getStrArg input "instructions" with
        | none => .error "Missing new_content"
        | some ins =>
            match getStrArg input "project_context" with
            | none => .error "Missing project_context"
            | some ctx => .ok (.editAndApply p ins ctx)
  else if toolName = "read_file" then
    match getStrArg input "path" with
    | some p => .ok (.readFile p)
    | none => .error "Missing path"
  else if toolName = "list_files" then
    .ok (.listFiles ((getStrArg input "path").getD "."))
  else if toolName = "fetch_commit_changes" then
    match getStrArg input "owner" with
    | none => .error "Missing owner"
    | some ow =>
        match getStrArg input "repo" with
        | none => .error "Missing repo"
        | some rp =>
            match getStrArg input "sha" with
            | none => .error "Missing sha"
            | some sh => .ok (.fetchCommitChanges ow rp sh)
  else .error ("Unknown tool: " ++ toolName)

/-! ## Theorems: conversation store -/

lemma foldl_add_to_history_history {α : Type} (C : Nat) (hC : 1 ≤ C) :
    ∀ (msgs h cur : List α), h.length ≤ C →
      ((msgs.foldl add_to_history ⟨h, cur, C⟩) : ConvMgr α).history
        = (h ++ msgs).drop (h.length + msgs.length - C) := by
  intro msgs
  induction msgs with
  | nil =>
      intro h cur hle
      simp [List.foldl, Nat.sub_eq_zero_of_le hle]
  | cons m rest ih =>
      intro h cur hle
      by_cases hc : C ≤ h.length
      · have hlen : h.length = C := Nat.le_antisymm hle hc
        have h1 : 1 ≤ h.length := le_trans hC hc
        have hstep : add_to_history (⟨h, cur, C⟩ : ConvMgr α) m
            = ⟨h.drop 1 ++ [m], cur, C⟩ := by
          simp [add_to_history, hc]
        have hlen' : (h.drop 1 ++ [m]).length ≤ C := by
          simp [List.length_drop]
          omega
        have := ih (h.drop 1 ++ [m]) cur hlen'
        rw [List.foldl_cons, hstep, this]
        have hidx : (h.drop 1 ++ [m]).length + rest.length - C = rest.length := by
          simp [List.length_drop]
          omega
        have hidx2 : h.length + (m :: rest).length - C = rest.length + 1 := by
          simp [List.length_cons]
          omega
        rw [hidx, hidx2]
        have hsplit : (h.drop 1 ++ [m]) ++ rest = (h ++ (m :: rest)).drop 1 := by
          rw [List.drop_append_of_le_length h1]
          simp
        rw [hsplit, List.drop_drop, Nat.add_comm]
      · have hstep : add_to_history (⟨h, cur, C⟩ : ConvMgr α) m
            = ⟨h ++ [m], cur, C⟩ := by
          simp [add_to_history, hc]
        have hlen' : (h ++ [m]).length ≤ C := by
          simp
          omega
        have := ih (h ++ [m]) cur hlen'
        rw [List.foldl_cons, hstep, this]
        have hidx : (h ++ [m]).length + rest.length - C = h.length + (m :: rest).length - C := by
          simp [List.length_cons]
          omega
        rw [hidx, List.append_assoc]
        simp

/-- C4 (amended): for every capacity C with 1 <= C and every sequence of
more than C calls to add_to_history starting from a fresh manager, the
history afterwards holds exactly the last C inserted messages in insertion
order, hence has length exactly C. (For C = 0 the code instead always
retains the single most recent message, see the counterexample.) -/
theorem add_to_history_fifo_bound (α : Type) (C : Nat) (msgs : List α)
    (hC : 1 ≤ C) (hN : C < msgs.length) :
    (msgs.foldl add_to_history (ConvMgr.new α C)).history = msgs.drop (msgs.length - C) ∧
    (msgs.foldl add_to_history (ConvMgr.new α C)).history.length = C := by
  have hbase : (ConvMgr.new α C) = (⟨[], [], C⟩ : ConvMgr α) := rfl
  have h := foldl_add_to_history_history C hC msgs [] [] (by simp)
  rw [hbase]
  constructor
  · rw [h]
    simp
  · rw [h]
    simp [List.length_drop]
    omega

theorem add_to_history_fifo_bound_witness :
    (([1, 2, 3] : List Nat).foldl add_to_history (ConvMgr.new Nat 2)).history
      = ([1, 2, 3] : List Nat).drop (([1, 2, 3] : List Nat).length - 2) ∧
    (([1, 2, 3] : List Nat).foldl add_to_history (ConvMgr.new Nat 2)).history.length = 2 :=
  add_to_history_fifo_bound Nat 2 [1, 2, 3] (by decide) (by decide)

/-- C4 counterexample: with capacity C = 0 and one inserted message
(N = 1 > 0 = C), add_to_history pops the (empty) front and appends, so the
history has length 1, not length C = 0 as the claim states for every
capacity. -/
theorem add_to_history_zero_capacity_counterexample :
    (([7] : List Nat).foldl add_to_history (ConvMgr.new Nat 0)).history = [7] ∧
    ((([7] : List Nat).foldl add_to_history (ConvMgr.new Nat 0)).history.length == 0) = false := by
  decide

/-- C5: for every state reachable by any sequence of add_to_history,
add_to_current, clear_current and commit_current_to_history operations,
get_combined_conversation returns exactly history ++ current. -/
theorem combined_view_eq_history_append_current (α : Type) (C : Nat) (ops : List (CmOp α)) :
    get_combined_conversation (ops.foldl applyCmOp (ConvMgr.new α C))
      = (ops.foldl applyCmOp (ConvMgr.new α C)).history
        ++ (ops.foldl applyCmOp (ConvMgr.new α C)).current := rfl

/-- C3: commit_current_to_history appends every current message to history
in order, but because the Rust code drains a clone
(self.current.clone().drain(..)) it never empties self.current: after the
call on a manager whose current is [10, 20], history is [10, 20] as the
claim says, yet current is still [10, 20] instead of the claimed empty
sequence (the repository's own test test_commit_current_to_history asserts
current.len() == 0 after the commit). -/
theorem commit_current_keeps_current :
    (commit_current_to_history (⟨[], [10, 20], 5⟩ : ConvMgr Nat)).history = [10, 20] ∧
    (commit_current_to_history (⟨[], [10, 20], 5⟩ : ConvMgr Nat)).current = [10, 20] ∧
    (((commit_current_to_history (⟨[], [10, 20], 5⟩ : ConvMgr Nat)).current == []) = false) := by
  decide

/-! ## Theorems: tool dispatcher -/

/-- C9: execute_tool with tool name create_file and an input payload that
has a path but lacks the required content argument does not reject the call:
it defaults content to the empty string (unwrap_or("")) and dispatches the
file creation, although the tool's own input schema in TOOLS lists content
as required. -/
theorem execute_tool_create_file_missing_content :
    execute_tool "create_file" [("path", .str "notes.txt")] = .ok (.createFile "notes.txt" "") :=
  rfl

/-! ## Theorems: agent loop -/

lemma processContent_textOnly (exec : String → String → Except String String) :
    ∀ items : List ContentItem, items.all isTextItem = true →
      processContent exec items = .ok (concatTexts items, []) := by
  intro items
  induction items with
  | nil => intro _; rfl
  | cons it rest ih =>
      intro h
      cases it with
      | text t =>
          have hr : rest.all isTextItem = true := by
            simpa [List.all_cons, isTextItem] using h
          simp [processContent, concatTexts, ih hr]
      | toolUse a b c =>
          exfalso
          simp [List.all_cons, isTextItem] at h

lemma chat_two_ok (exec : String → String → Except String String) (r1 r2 : ApiResponse)
    (h1 : r1.content.all isTextItem = true) (h3 : ¬ (r2.stopReason = "tool_use")) :
    chat_with_claude exec [.ok r1, .ok r2] = some ⟨.ok (concatTexts r1.content), 0, 2⟩ := by
  have hp := processContent_textOnly exec r1.content h1
  simp [chat_with_claude, hp, h3]

/-- C7 (amended): a session whose first response contains no tool-use
request terminates after exactly two remote round trips, not one:
chat_with_claude always issues one unconditional follow-up call
(ask_claude_tool) with the empty tool-result list; when that follow-up's
stop reason is not tool_use, the first response's text - which here
contains the completion marker, so main's loop then exits - is returned to
the caller. -/
theorem chat_with_claude_no_tool_use_terminates (exec : String → String → Except String String)
    (r1 r2 : ApiResponse)
    (h1 : r1.content.all isTextItem = true)
    (h2 : shouldExit (concatTexts r1.content) = true)
    (h3 : ¬ (r2.stopReason = "tool_use")) :
    chat_with_claude exec [.ok r1, .ok r2] = some ⟨.ok (concatTexts r1.content), 0, 2⟩ ∧
    shouldExit (concatTexts r1.content) = true :=
  ⟨chat_two_ok exec r1 r2 h1 h3, h2⟩

theorem chat_with_claude_no_tool_use_terminates_witness :
    chat_with_claude (fun _ _ => Except.ok "")
        [.ok ⟨[.text "AUTOMODE_COMPLETE done"], "end_turn"⟩, .ok ⟨[], "end_turn"⟩]
      = some ⟨.ok (concatTexts [.text "AUTOMODE_COMPLETE done"]), 0, 2⟩ ∧
    shouldExit (concatTexts [.text "AUTOMODE_COMPLETE done"]) = true :=
  chat_with_claude_no_tool_use_terminates (fun _ _ => Except.ok "")
    ⟨[.text "AUTOMODE_COMPLETE done"], "end_turn"⟩ ⟨[], "end_turn"⟩
    (by decide) (by decide) (by decide)

/-- C7 counterexample: a first response with no tool-use request whose text
contains the completion marker still costs two remote round trips (the
unconditional ask_claude_tool follow-up), refuting the claimed exactly-one
round trip. -/
theorem chat_with_claude_two_round_trips_counterexample :
    chat_with_claude (fun _ _ => Except.ok "")
        [.ok ⟨[.text "done AUTOMODE_COMPLETE"], "end_turn"⟩, .ok ⟨[], "end_turn"⟩]
      = some ⟨.ok "done AUTOMODE_COMPLETE", 0, 2⟩ ∧
    shouldExit "done AUTOMODE_COMPLETE" = true ∧
    (((chat_with_claude (fun _ _ => Except.ok "")
        [.ok ⟨[.text "done AUTOMODE_COMPLETE"], "end_turn"⟩, .ok ⟨[], "end_turn"⟩]).map
          ChatResult.roundTrips) == some 1) = false :=
  ⟨rfl, rfl, rfl⟩

/-- C8: when the first remote call fails with the rate-limit indicator and
the retry succeeds (a text-only response followed by a follow-up whose stop
reason is not tool_use), the session sleeps exactly once, consumes three
round trips in total and returns the retried response's text successfully -
it never aborts. -/
theorem chat_with_claude_rate_limit_retry (exec : String → String → Except String String)
    (msg : String) (r1 r2 : ApiResponse)
    (hrl : containsSubstr rateLimitIndicator msg = true)
    (h1 : r1.content.all isTextItem = true)
    (h3 : ¬ (r2.stopReason = "tool_use")) :
    chat_with_claude exec [.fail msg, .ok r1, .ok r2]
      = some ⟨.ok (concatTexts r1.content), 1, 3⟩ := by
  have h2 := chat_two_ok exec r1 r2 h1 h3
  have hstep : chat_with_claude exec [.fail msg, .ok r1, .ok r2]
      = if containsSubstr rateLimitIndicator msg then
          match chat_with_claude exec [.ok r1, .ok r2] with
          | some res => some ⟨res.result, res.delays + 1, res.roundTrips + 1⟩
          | none => none
        else some ⟨.error ("Failed to execute query with tools: " ++ msg), 0, 1⟩ := rfl
  rw [hstep, if_pos hrl, h2]

theorem chat_with_claude_rate_limit_retry_witness :
    chat_with_claude (fun _ _ => Except.ok "")
        [.fail "Too many Requests. You have been rate limited.",
          .ok ⟨[.text "all done"], "end_turn"⟩, .ok ⟨[], "end_turn"⟩]
      = some ⟨.ok (concatTexts [.text "all done"]), 1, 3⟩ :=
  chat_with_claude_rate_limit_retry (fun _ _ => Except.ok "")
    "Too many Requests. You have been rate limited."
    ⟨[.text "all done"], "end_turn"⟩ ⟨[], "end_turn"⟩
    (by decide) (by decide) (by decide)

/-! ## Theorems: patch applier -/

/-- C1 counterexample: the applied result is NOT "foo\nqux\nbaz\n" - the
code rejoins the line vector with single newlines, so the original content's
trailing newline is dropped. -/
theorem apply_edits_trailing_newline_counterexample :
    (((apply_edits [⟨"bar", "qux"⟩] "foo\n  bar\nbaz\n").map (fun r => r.1))
      == some "foo\nqux\nbaz\n") = false := by
  decide

/-- C1 (amended): on content "foo\n  bar\nbaz\n" with the single edit
{search: "bar", replace: "qux"}, whitespace-normalized line matching locates
the indented "bar" line, the applied result is "foo\nqux\nbaz" (the lines
rejoined with single newlines - the trailing newline of the original is
dropped), changes_made is true with no failed edits, and the line diff
against the pre-edit content reports one added and one removed line. -/
theorem apply_edits_indented_match :
    apply_edits [⟨"bar", "qux"⟩] "foo\n  bar\nbaz\n" = some ("foo\nqux\nbaz", true, []) ∧
    addedCount (strLines "foo\n  bar\nbaz\n".data) (strLines "foo\nqux\nbaz".data) = 1 ∧
    removedCount (strLines "foo\n  bar\nbaz\n".data) (strLines "foo\nqux\nbaz".data) = 1 := by
  refine ⟨by decide, by decide, by decide⟩

lemma applyEditsAux_spec :
    ∀ (instrs : List EditInstruction) (i : Nat) (lines : List (List Char))
      (changed : Bool) (failed0 : List String)
      (out : List (List Char) × Bool × List String),
      applyEditsAux i instrs lines changed failed0 = some out →
      ∃ tail : List String,
        out.2.2 = failed0 ++ tail ∧
        tail.length ≤ instrs.length ∧
        (out.2.1 = true ↔ (changed = true ∨ tail.length < instrs.length)) ∧
        (tail.length = instrs.length → out.1 = lines) ∧
        (∀ f ∈ tail, ∃ j e, instrs.get? j = some e ∧ f = mkFailedEntry (i + j) e.search) := by
  intro instrs
  induction instrs with
  | nil =>
      intro i lines changed failed0 out h
      have h' : (lines, changed, failed0) = out := by
        simpa [applyEditsAux] using h
      refine ⟨[], by simp [← h'], by simp, by simp [← h'], by intro _; simp [← h'], by simp⟩
  | cons e rest ih =>
      intro i lines changed failed0 out h
      rcases hfm : findMatch lines ((strLines e.search.data).map normalize_whitespace)
        with _ | start
      · simp only [applyEditsAux, hfm] at h
        obtain ⟨tail, ht1, ht2, ht3, ht4, ht5⟩ :=
          ih (i + 1) lines changed (failed0 ++ [mkFailedEntry i e.search]) out h
        refine ⟨mkFailedEntry i e.search :: tail, ?_, ?_, ?_, ?_, ?_⟩
        · rw [ht1, List.append_assoc]
          rfl
        · simpa using Nat.succ_le_succ ht2
        · rw [ht3]
          have harith : tail.length < rest.length ↔
              (mkFailedEntry i e.search :: tail).length < (e :: rest).length := by
            simp [List.length_cons]
          rw [harith]
        · intro hlen
          apply ht4
          simp only [List.length_cons] at hlen
          omega
        · intro f hf
          rcases List.mem_cons.mp hf with hf1 | hf2
          · exact ⟨0, e, rfl, by rw [hf1, Nat.add_zero]⟩
          · obtain ⟨j, e', hj, hf'⟩ := ht5 f hf2
            refine ⟨j + 1, e', by simpa using hj, ?_⟩
            rw [hf']
            congr 1
            omega
      · by_cases hemp : (strLines e.search.data).isEmpty = true
        · simp [applyEditsAux, hfm, hemp] at h
        · have hstep : applyEditsAux i (e :: rest) lines changed failed0
              = applyEditsAux (i + 1) rest
                  (lines.take start ++ strLines e.replace.data ++
                    lines.drop (start + (strLines e.search.data).length))
                  true failed0 := by
            simp [applyEditsAux, hfm, hemp]
          rw [hstep] at h
          obtain ⟨tail, ht1, ht2, ht3, ht4, ht5⟩ :=
            ih (i + 1) _ true failed0 out h
          have hlt : tail.length < (e :: rest).length := by
            simp only [List.length_cons]
            omega
          refine ⟨tail, ht1, le_trans ht2 (Nat.le_succ _), ?_, ?_, ?_⟩
          · constructor
            · intro _
              exact Or.inr hlt
            · intro _
              exact ht3.mpr (Or.inl rfl)
          · intro hlen
            exfalso
            simp only [List.length_cons] at hlen
            omega
          · intro f hf
            obtain ⟨j, e', hj, hf'⟩ := ht5 f hf
            refine ⟨j + 1, e', by simpa using hj, ?_⟩
            rw [hf']
            congr 1
            omega

/-- C2: whenever apply_edits returns (so no empty-search panic occurs):
(a) the failed-edits report has at most one entry per instruction;
(b) changes_made is true iff at least one instruction applied - each
instruction either applies or contributes exactly one failed entry, so this
reads: strictly fewer failed entries than instructions;
(c) if nothing applied, the content is returned unchanged (the original
lines rejoined);
(d) every failed entry records the index and original search text of some
instruction;
(e) an instruction whose normalized search lines are not found leaves the
content untouched, appends exactly its one failed entry and processing
continues with the next instruction. -/
theorem apply_edits_failed_edits_report (instrs : List EditInstruction)
    (original content : String) (changed : Bool) (failed : List String)
    (h : apply_edits instrs original = some (content, changed, failed)) :
    failed.length ≤ instrs.length ∧
    (changed = true ↔ failed.length < instrs.length) ∧
    (changed = false → content = String.mk (joinSep '\n' (strLines original.data))) ∧
    (∀ f ∈ failed, ∃ j e, instrs.get? j = some e ∧ f = mkFailedEntry j e.search) ∧
    (∀ (i : Nat) (lines : List (List Char)) (ch : Bool) (fl : List String)
        (e : EditInstruction) (rest : List EditInstruction),
      findMatch lines ((strLines e.search.data).map normalize_whitespace) = none →
      applyEditsAux i (e :: rest) lines ch fl
        = applyEditsAux (i + 1) rest lines ch (fl ++ [mkFailedEntry i e.search])) := by
  unfold apply_edits at h
  rcases hout : applyEditsAux 0 instrs (strLines original.data) false [] with _ | out
  · rw [hout] at h
    simp at h
  · rw [hout] at h
    have h2 : (String.mk (joinSep '\n' out.1), out.2.1, out.2.2) = (content, changed, failed) := by
      simpa using h
    have hc : content = String.mk (joinSep '\n' out.1) := (congrArg Prod.fst h2).symm
    have hch : changed = out.2.1 := (congrArg (fun p => p.2.1) h2).symm
    have hfl : failed = out.2.2 := (congrArg (fun p => p.2.2) h2).symm
    obtain ⟨tail, ht1, ht2, ht3, ht4, ht5⟩ :=
      applyEditsAux_spec instrs 0 (strLines original.data) false [] out hout
    have hft : failed = tail := by
      rw [hfl, ht1]
      simp
    refine ⟨by rw [hft]; exact ht2, ?_, ?_, ?_, ?_⟩
    · rw [hch, hft, ht3]
      simp
    · intro hfalse
      have hot : out.2.1 = false := by rw [← hch]; exact hfalse
      have hnlt : ¬ tail.length < instrs.length := by
        intro hlt
        have htrue : out.2.1 = true := ht3.mpr (Or.inr hlt)
        rw [htrue] at hot
        cases hot
      have hle : tail.length = instrs.length := Nat.le_antisymm ht2 (Nat.le_of_not_lt hnlt)
      have hlines : out.1 = strLines original.data := ht4 hle
      rw [hc, hlines]
    · intro f hf
      rw [hft] at hf
      obtain ⟨j, e, hj, hfe⟩ := ht5 f hf
      exact ⟨j, e, hj, by simpa using hfe⟩
    · intro i lines ch fl e rest hn
      simp [applyEditsAux, hn]

theorem apply_edits_failed_edits_report_witness :
    (["Edit 2: zz"] : List String).length ≤ ([⟨"a", "b"⟩, ⟨"zz", "w"⟩] : List EditInstruction).length ∧
    (true = true ↔ (["Edit 2: zz"] : List String).length
      < ([⟨"a", "b"⟩, ⟨"zz", "w"⟩] : List EditInstruction).length) ∧
    (true = false → ("b\nc" : String) = String.mk (joinSep '\n' (strLines ("a\nc" : String).data))) ∧
    (∀ f ∈ (["Edit 2: zz"] : List String), ∃ j e,
      ([⟨"a", "b"⟩, ⟨"zz", "w"⟩] : List EditInstruction).get? j = some e ∧
      f = mkFailedEntry j e.search) ∧
    (∀ (i : Nat) (lines : List (List Char)) (ch : Bool) (fl : List String)
        (e : EditInstruction) (rest : List EditInstruction),
      findMatch lines ((strLines e.search.data).map normalize_whitespace) = none →
      applyEditsAux i (e :: rest) lines ch fl
        = applyEditsAux (i + 1) rest lines ch (fl ++ [mkFailedEntry i e.search])) :=
  apply_edits_failed_edits_report [⟨"a", "b"⟩, ⟨"zz", "w"⟩] "a\nc" "b\nc" true
    ["Edit 2: zz"] (by decide)

lemma applyEditsAux_noMatch :
    ∀ (instrs : List EditInstruction) (i : Nat) (lines : List (List Char))
      (changed : Bool) (failed0 : List String),
      (∀ e ∈ instrs, findMatch lines ((strLines e.search.data).map normalize_whitespace) = none) →
      applyEditsAux i instrs lines changed failed0
        = some (lines, changed, failed0 ++ failedAllFrom i instrs) := by
  intro instrs
  induction instrs with
  | nil =>
      intro i lines changed failed0 _
      simp [applyEditsAux, failedAllFrom]
  | cons e rest ih =>
      intro i lines changed failed0 hall
      have he := hall e (List.mem_cons_self e rest)
      have hr : ∀ e' ∈ rest,
          findMatch lines ((strLines e'.search.data).map normalize_whitespace) = none :=
        fun e' h' => hall e' (List.mem_cons_of_mem e h')
      simp only [applyEditsAux, he]
      rw [ih (i + 1) lines changed (failed0 ++ [mkFailedEntry i e.search]) hr]
      simp [failedAllFrom, List.append_assoc]

/-- C10: when no edit instruction's normalized search lines occur in the
original content, apply_edits reports changes_made = false (so the else
branch that skips the fs::write runs - no file write), records every
instruction in the failed-edits report, and returns the original content's
lines rejoined with single newline separators - hence a trailing newline of
the original is absent from the returned content. -/
theorem apply_edits_no_match_frame (instrs : List EditInstruction) (original : String)
    (h : ∀ e ∈ instrs, findMatch (strLines original.data)
        ((strLines e.search.data).map normalize_whitespace) = none) :
    apply_edits instrs original
      = some (String.mk (joinSep '\n' (strLines original.data)), false, failedAllFrom 0 instrs) := by
  unfold apply_edits
  rw [applyEditsAux_noMatch instrs 0 (strLines original.data) false [] h]
  simp

theorem apply_edits_no_match_frame_witness :
    apply_edits [⟨"zzz", "q"⟩] "a\nb\n" = some ("a\nb", false, ["Edit 1: zzz"]) ∧
    ((("a\nb" : String) == ("a\nb\n" : String)) = false) :=
  ⟨(apply_edits_no_match_frame [⟨"zzz", "q"⟩] "a\nb\n" (by decide)).trans (by decide), by decide⟩

/-! ## Theorems: edit-instruction extractor -/

lemma isPrefixOf_append_self (xs ys : List Char) : List.isPrefixOf xs (xs ++ ys) = true := by
  induction xs with
  | nil => simp
  | cons x xt ih => simp [List.isPrefixOf_cons₂, ih]

lemma isPrefixOf_cons_of_ne_head {c h : Char} (hne : h ≠ c) (pt cs : List Char) :
    List.isPrefixOf (c :: pt) (h :: cs) = false := by
  have hb : (c == h) = false := beq_eq_false_iff_ne.mpr (Ne.symm hne)
  simp [List.isPrefixOf_cons₂, hb]

lemma splitFirst_cons_pos (pat : List Char) (c : Char) (rest : List Char)
    (h : List.isPrefixOf pat (c :: rest) = true) :
    splitFirst pat (c :: rest) = some ([], List.drop pat.length (c :: rest)) := by
  simp only [splitFirst, h, if_true]

lemma splitFirst_cons_neg (pat : List Char) (c : Char) (rest : List Char)
    (h : List.isPrefixOf pat (c :: rest) = false) :
    splitFirst pat (c :: rest)
      = match splitFirst pat rest with
        | some (b, a) => some (c :: b, a)
        | none => none := by
  simp only [splitFirst, h, Bool.false_eq_true, if_false]

lemma splitFirst_append_of_head_lt (pt : List Char) :
    ∀ (a b : List Char), (∀ c ∈ a, c ≠ '<') →
      splitFirst ('<' :: pt) (a ++ ('<' :: pt) ++ b) = some (a, b) := by
  intro a
  induction a with
  | nil =>
      intro b _
      have h1 : List.isPrefixOf ('<' :: pt) ('<' :: (pt ++ b)) = true := by
        simp [List.isPrefixOf_cons₂, isPrefixOf_append_self]
      have h2 := splitFirst_cons_pos ('<' :: pt) '<' (pt ++ b) h1
      simp only [List.nil_append, List.cons_append] at h2 ⊢
      rw [h2]
      simp [List.drop_succ_cons, List.drop_left]
  | cons x xt ih =>
      intro b hx
      have hxne : x ≠ '<' := hx x (List.mem_cons_self x xt)
      have hnp : List.isPrefixOf ('<' :: pt) (x :: (xt ++ ('<' :: pt) ++ b)) = false :=
        isPrefixOf_cons_of_ne_head hxne pt _
      have hrest := ih b (fun c hc => hx c (List.mem_cons_of_mem x hc))
      have hstep := splitFirst_cons_neg ('<' :: pt) x (xt ++ ('<' :: pt) ++ b) hnp
      simp only [List.cons_append] at hstep ⊢
      rw [hstep]
      simp only [List.cons_append] at hrest
      rw [hrest]

lemma splitFirst_none_of_no_lt (pt : List Char) :
    ∀ cs : List Char, (∀ c ∈ cs, c ≠ '<') → splitFirst ('<' :: pt) cs = none := by
  intro cs
  induction cs with
  | nil => intro _; rfl
  | cons x xt ih =>
      intro hx
      have hxne : x ≠ '<' := hx x (List.mem_cons_self x xt)
      have hnp : List.isPrefixOf ('<' :: pt) (x :: xt) = false :=
        isPrefixOf_cons_of_ne_head hxne pt xt
      have hrest := ih (fun c hc => hx c (List.mem_cons_of_mem x hc))
      rw [splitFirst_cons_neg ('<' :: pt) x xt hnp, hrest]

lemma dropWhile_append_of_all {p : Char → Bool} :
    ∀ (w t : List Char), (∀ c ∈ w, p c = true) →
      List.dropWhile p (w ++ t) = List.dropWhile p t := by
  intro w
  induction w with
  | nil => intro t _; rfl
  | cons x xt ih =>
      intro t hx
      have hpx : p x = true := hx x (List.mem_cons_self x xt)
      have hrest := ih t (fun c hc => hx c (List.mem_cons_of_mem x hc))
      simp [List.dropWhile, hpx, hrest]

lemma findClose_cons_neg (acc : List Char) (c : Char) (rest : List Char)
    (h : List.isPrefixOf closeSearchMark (c :: rest) = false) :
    findClose acc (c :: rest) = findClose (acc ++ [c]) rest := by
  simp only [findClose, h, Bool.false_eq_true, if_false]

lemma findClose_skip :
    ∀ (s : List Char), (∀ c ∈ s, c ≠ '<') →
      ∀ (acc tail : List Char), findClose acc (s ++ tail) = findClose (acc ++ s) tail := by
  intro s
  induction s with
  | nil => intro _ acc tail; simp
  | cons x xt ih =>
      intro hx acc tail
      have hxne : x ≠ '<' := hx x (List.mem_cons_self x xt)
      have hnp : List.isPrefixOf closeSearchMark (x :: (xt ++ tail)) = false := by
        rw [show closeSearchMark = '<' :: closeSearchTail from rfl]
        exact isPrefixOf_cons_of_ne_head hxne closeSearchTail (xt ++ tail)
      have hrest := ih (fun c hc => hx c (List.mem_cons_of_mem x hc)) (acc ++ [x]) tail
      rw [List.cons_append, findClose_cons_neg acc x (xt ++ tail) hnp, hrest,
        List.append_assoc]
      rfl

lemma findClose_boundary (acc w r rest : List Char)
    (hw : ∀ c ∈ w, isWsChar c = true) (hr : ∀ c ∈ r, c ≠ '<') :
    findClose acc
        (closeSearchMark ++ (w ++ (openReplaceMark ++ (r ++ (closeReplaceMark ++ rest)))))
      = some (acc, r, rest) := by
  have hshape : closeSearchMark ++ (w ++ (openReplaceMark ++ (r ++ (closeReplaceMark ++ rest))))
      = '<' :: (closeSearchTail ++ (w ++ (openReplaceMark ++ (r ++ (closeReplaceMark ++ rest))))) :=
    rfl
  have h1 : List.isPrefixOf closeSearchMark
      ('<' :: (closeSearchTail ++ (w ++ (openReplaceMark ++ (r ++ (closeReplaceMark ++ rest))))))
        = true := by
    rw [← hshape]
    exact isPrefixOf_append_self closeSearchMark _
  have hafter : afterWsOf
      ('<' :: (closeSearchTail ++ (w ++ (openReplaceMark ++ (r ++ (closeReplaceMark ++ rest))))))
        = openReplaceMark ++ (r ++ (closeReplaceMark ++ rest)) := by
    unfold afterWsOf
    rw [← hshape, List.drop_left, dropWhile_append_of_all w _ hw,
      show openReplaceMark ++ (r ++ (closeReplaceMark ++ rest))
        = '<' :: (openReplaceTail ++ (r ++ (closeReplaceMark ++ rest))) from rfl,
      List.dropWhile_cons]
    simp [isWsChar]
  have h2 : List.isPrefixOf openReplaceMark
      (afterWsOf ('<' :: (closeSearchTail ++ (w ++ (openReplaceMark ++ (r ++ (closeReplaceMark ++ rest))))))) = true := by
    rw [hafter]
    exact isPrefixOf_append_self openReplaceMark _
  have hdrop : List.drop openReplaceMark.length
      (afterWsOf ('<' :: (closeSearchTail ++ (w ++ (openReplaceMark ++ (r ++ (closeReplaceMark ++ rest)))))))
        = r ++ (closeReplaceMark ++ rest) := by
    rw [hafter]
    exact List.drop_left _ _
  have hsf : splitFirst closeReplaceMark (r ++ (closeReplaceMark ++ rest)) = some (r, rest) := by
    rw [show closeReplaceMark = '<' :: closeReplaceTail from rfl, ← List.append_assoc]
    exact splitFirst_append_of_head_lt closeReplaceTail r rest hr
  rw [hshape]
  simp only [findClose, h1, h2, if_true, hdrop, hsf]

lemma parseBlocksF_succ_some (fuel : Nat) (cs pre rest s r rest2 : List Char)
    (h1 : splitFirst openSearchMark cs = some (pre, rest))
    (h2 : findClose [] rest = some (s, r, rest2)) :
    parseBlocksF (fuel + 1) cs = (trimChars s, trimChars r) :: parseBlocksF fuel rest2 := by
  simp only [parseBlocksF, h1, h2]

lemma parseBlocksF_no_open (fuel : Nat) (cs : List Char)
    (h : splitFirst openSearchMark cs = none) :
    parseBlocksF fuel cs = [] := by
  cases fuel with
  | zero => rfl
  | succ f => simp only [parseBlocksF, h]

lemma splitFirst_openSearch_append (a b : List Char) (ha : ∀ c ∈ a, c ≠ '<') :
    splitFirst openSearchMark (a ++ (openSearchMark ++ b)) = some (a, b) := by
  rw [← List.append_assoc]
  exact splitFirst_append_of_head_lt openSearchTail a b ha

lemma splitFirst_openSearch_none (cs : List Char) (h : ∀ c ∈ cs, c ≠ '<') :
    splitFirst openSearchMark cs = none :=
  splitFirst_none_of_no_lt openSearchTail cs h

/-- C6: the extractor returns one instruction per non-overlapping
well-formed SEARCH/REPLACE pair, in document order, with both fields
trimmed of leading/trailing whitespace (internal whitespace preserved):
for text built from two well-formed pairs surrounded by marker-free
commentary (no < characters outside the markers, whitespace between
</SEARCH> and <REPLACE>) it returns exactly the two trimmed instructions,
and it returns the empty list for text containing no delimiters. -/
theorem parse_search_replace_blocks_spec
    (pre s1 w1 r1 mid s2 w2 r2 post cs0 : List Char)
    (hpre : ∀ c ∈ pre, c ≠ '<') (hs1 : ∀ c ∈ s1, c ≠ '<')
    (hw1 : ∀ c ∈ w1, isWsChar c = true) (hr1 : ∀ c ∈ r1, c ≠ '<')
    (hmid : ∀ c ∈ mid, c ≠ '<') (hs2 : ∀ c ∈ s2, c ≠ '<')
    (hw2 : ∀ c ∈ w2, isWsChar c = true) (hr2 : ∀ c ∈ r2, c ≠ '<')
    (hpost : ∀ c ∈ post, c ≠ '<') (hcs0 : ∀ c ∈ cs0, c ≠ '<') :
    parse_search_replace_blocks (String.mk
        (pre ++ (openSearchMark ++ (s1 ++ (closeSearchMark ++ (w1 ++ (openReplaceMark ++
          (r1 ++ (closeReplaceMark ++ (mid ++ (openSearchMark ++ (s2 ++ (closeSearchMark ++
            (w2 ++ (openReplaceMark ++ (r2 ++ (closeReplaceMark ++ post)))))))))))))))))
      = [⟨String.mk (trimChars s1), String.mk (trimChars r1)⟩,
         ⟨String.mk (trimChars s2), String.mk (trimChars r2)⟩] ∧
    parse_search_replace_blocks (String.mk cs0) = [] := by
  constructor
  · unfold parse_search_replace_blocks parseBlocksL
    have h1 : splitFirst openSearchMark
        (pre ++ (openSearchMark ++ (s1 ++ (closeSearchMark ++ (w1 ++ (openReplaceMark ++
          (r1 ++ (closeReplaceMark ++ (mid ++ (openSearchMark ++ (s2 ++ (closeSearchMark ++
            (w2 ++ (openReplaceMark ++ (r2 ++ (closeReplaceMark ++ post))))))))))))))))
        = some (pre, s1 ++ (closeSearchMark ++ (w1 ++ (openReplaceMark ++
            (r1 ++ (closeReplaceMark ++ (mid ++ (openSearchMark ++ (s2 ++ (closeSearchMark ++
              (w2 ++ (openReplaceMark ++ (r2 ++ (closeReplaceMark ++ post)))))))))))))) :=
      splitFirst_openSearch_append pre _ hpre
    have h2 : findClose []
        (s1 ++ (closeSearchMark ++ (w1 ++ (openReplaceMark ++
          (r1 ++ (closeReplaceMark ++ (mid ++ (openSearchMark ++ (s2 ++ (closeSearchMark ++
            (w2 ++ (openReplaceMark ++ (r2 ++ (closeReplaceMark ++ post))))))))))))))
        = some (s1, r1, mid ++ (openSearchMark ++ (s2 ++ (closeSearchMark ++
            (w2 ++ (openReplaceMark ++ (r2 ++ (closeReplaceMark ++ post)))))))) := by
      rw [findClose_skip s1 hs1 [] _, List.nil_append]
      exact findClose_boundary s1 w1 r1 _ hw1 hr1
    have h3 : splitFirst openSearchMark
        (mid ++ (openSearchMark ++ (s2 ++ (closeSearchMark ++
          (w2 ++ (openReplaceMark ++ (r2 ++ (closeReplaceMark ++ post))))))))
        = some (mid, s2 ++ (closeSearchMark ++
            (w2 ++ (openReplaceMark ++ (r2 ++ (closeReplaceMark ++ post)))))) :=
      splitFirst_openSearch_append mid _ hmid
    have h4 : findClose []
        (s2 ++ (closeSearchMark ++ (w2 ++ (openReplaceMark ++
          (r2 ++ (closeReplaceMark ++ post))))))
        = some (s2, r2, post) := by
      rw [findClose_skip s2 hs2 [] _, List.nil_append]
      exact findClose_boundary s2 w2 r2 post hw2 hr2
    have hpos : 0 < List.length
        (pre ++ (openSearchMark ++ (s1 ++ (closeSearchMark ++ (w1 ++ (openReplaceMark ++
          (r1 ++ (closeReplaceMark ++ (mid ++ (openSearchMark ++ (s2 ++ (closeSearchMark ++
            (w2 ++ (openReplaceMark ++ (r2 ++ (closeReplaceMark ++ post)))))))))))))))) := by
      simp [List.length_append, openSearchMark, openSearchTail, closeSearchMark,
        closeSearchTail, openReplaceMark, openReplaceTail, closeReplaceMark, closeReplaceTail]
    obtain ⟨k, hk⟩ : ∃ k, List.length
        (pre ++ (openSearchMark ++ (s1 ++ (closeSearchMark ++ (w1 ++ (openReplaceMark ++
          (r1 ++ (closeReplaceMark ++ (mid ++ (openSearchMark ++ (s2 ++ (closeSearchMark ++
            (w2 ++ (openReplaceMark ++ (r2 ++ (closeReplaceMark ++ post))))))))))))))))
        = k + 1 :=
      ⟨List.length
        (pre ++ (openSearchMark ++ (s1 ++ (closeSearchMark ++ (w1 ++ (openReplaceMark ++
          (r1 ++ (closeReplaceMark ++ (mid ++ (openSearchMark ++ (s2 ++ (closeSearchMark ++
            (w2 ++ (openReplaceMark ++ (r2 ++ (closeReplaceMark ++ post)))))))))))))))) - 1,
        by omega⟩
    rw [parseBlocksF_succ_some _ _ _ _ _ _ _ h1 h2, hk,
      parseBlocksF_succ_some _ _ _ _ _ _ _ h3 h4,
      parseBlocksF_no_open k post (splitFirst_openSearch_none post hpost)]
    simp
  · unfold parse_search_replace_blocks parseBlocksL
    rw [parseBlocksF_no_open _ _ (splitFirst_openSearch_none cs0 hcs0)]
    simp

theorem parse_search_replace_blocks_spec_witness :
    parse_search_replace_blocks (String.mk
        ("some commentary ".data ++ (openSearchMark ++ ("foo  bar".data ++ (closeSearchMark ++
          ("\n".data ++ (openReplaceMark ++ (" baz ".data ++ (closeReplaceMark ++
            (" and ".data ++ (openSearchMark ++ ("qux".data ++ (closeSearchMark ++
              ("".data ++ (openReplaceMark ++ ("quux".data ++ (closeReplaceMark ++
                " tail".data)))))))))))))))))
      = [⟨String.mk (trimChars "foo  bar".data), String.mk (trimChars " baz ".data)⟩,
         ⟨String.mk (trimChars "qux".data), String.mk (trimChars "quux".data)⟩] ∧
    parse_search_replace_blocks (String.mk "no delimiters here".data) = [] :=
  parse_search_replace_blocks_spec "some commentary ".data "foo  bar".data "\n".data
    " baz ".data " and ".data "qux".data "".data "quux".data " tail".data
    "no delimiters here".data
    (by decide) (by decide) (by decide) (by decide) (by decide)
    (by decide) (by decide) (by decide) (by decide) (by decide)
